import Mathlib

/-!
# Verification of the xayn discovery engine against its specification

Shallow embedding of the engine's article filter chain, breaking-news fetch
aggregation, engine orchestration (update cycle, feed retrieval, state
round-trip) and the semantic clustering filter, translated from the Rust
sources.  Machine reals (`f32`) are modelled by `ℚ`: every claim settled here
depends only on order comparisons and exact branch conditions (equality,
`< 0`, `> 0`, min/max), which `f32` computes exactly on the inputs involved.

The file is organised as definitions first (one namespace per component),
then the lemmas and claim theorems.
-/

namespace ArticleFilters

/-- Provider article payload, restricted to the fields read by the filters
(`xayn_discovery_engine_providers::Article`). -/
structure Article where
  title : String
  link : String
  excerpt : String
  source_domain : String
  media : String
  deriving Repr, DecidableEq

/-- `HistoricDocument`: url/title projection kept to prevent re-surfacing. -/
structure HistoricDocument where
  url : String
  title : String
  deriving Repr, DecidableEq

/-- A stack `Document`, restricted to the `resource.url`/`resource.title`
fields read by `DuplicateFilter::apply`. -/
structure StackDoc where
  url : String
  title : String
  deriving Repr, DecidableEq

/-- `UniqueArticle::eq` from `stack/filters/article.rs`: two articles are
considered equal when their links or their titles coincide. -/
def uaBeq (a b : Article) : Bool :=
  a.link == b.link || a.title == b.title

/-- `UniqueArticle::cmp`: `Equal` under `uaBeq`, otherwise the lexicographic
order on the `(title, link)` pair.  Note that this order is not transitive,
which `BTreeSet` does not tolerate. -/
def uaCmp (a b : Article) : Ordering :=
  if uaBeq a b then .eq
  else (compare a.title b.title).then (compare a.link b.link)

/-- One `BTreeSet::insert` step.  The standard-library B-tree locates the
insertion point by scanning a node's keys left to right, continuing past keys
comparing `Greater`, stopping at the first `Equal` (element already present,
set unchanged) or `Less` (insert in front).  For sets small enough to fit a
single node this list scan is exactly that search. -/
def btreeInsert (x : Article) : List Article → List Article
  | [] => [x]
  | a :: rest =>
    match uaCmp x a with
    | .gt => a :: btreeInsert x rest
    | .eq => a :: rest
    | .lt => x :: a :: rest

/-- `articles.into_iter().map(UniqueArticle).collect::<BTreeSet<_>>()`:
repeated insertion in input order. -/
def btreeOfList (articles : List Article) : List Article :=
  articles.foldl (fun s a => btreeInsert a s) []

/-- `DuplicateFilter::apply`: collect the articles into the `BTreeSet` keyed
by `UniqueArticle`, then retain only articles whose link is not a history or
stack url and whose title is not a history or stack title. -/
def DuplicateFilter.apply (history : List HistoricDocument) (stack : List StackDoc)
    (articles : List Article) : List Article :=
  let urls := history.map (·.url) ++ stack.map (·.url)
  let titles := history.map (·.title) ++ stack.map (·.title)
  (btreeOfList articles).filter fun a =>
    !(urls.contains a.link || titles.contains a.title)

/-- `MalformedFilter::is_valid`.  `urlOk` abstracts `url::Url::parse(_).is_ok()`
(the `url` crate is an external collaborator). -/
def MalformedFilter.is_valid (urlOk : String → Bool) (a : Article) : Bool :=
  !a.title.isEmpty && !a.source_domain.isEmpty && !a.excerpt.isEmpty &&
    urlOk a.media && urlOk a.link

/-- `MalformedFilter::apply`: retain the well-formed articles. -/
def MalformedFilter.apply (urlOk : String → Bool) (articles : List Article) :
    List Article :=
  articles.filter (MalformedFilter.is_valid urlOk)

/-- `CommonFilter::apply`: `DuplicateFilter` first, then `MalformedFilter`
(`DuplicateFilter::apply(..).and_then(|articles| MalformedFilter::apply(..))`). -/
def CommonFilter.apply (urlOk : String → Bool) (history : List HistoricDocument)
    (stack : List StackDoc) (articles : List Article) : List Article :=
  MalformedFilter.apply urlOk (DuplicateFilter.apply history stack articles)

/-- The stage order claimed by the spec sentence: the malformed filter first,
then the duplicate filter.  Used only to compare against the source order. -/
def CommonFilter.specOrderApply (urlOk : String → Bool)
    (history : List HistoricDocument) (stack : List StackDoc)
    (articles : List Article) : List Article :=
  DuplicateFilter.apply history stack (MalformedFilter.apply urlOk articles)

/-- An article with an empty excerpt (malformed) whose title collides with
`articleV`. -/
def articleM : Article :=
  ⟨"t", "https://m.example/", "", "dom", "https://img.example/"⟩

/-- A well-formed article whose title collides with `articleM`. -/
def articleV : Article :=
  ⟨"t", "https://v.example/", "e", "dom", "https://img.example/"⟩

/-- Well-formed article, title `"b"`, link `l1`. -/
def articleK1 : Article :=
  ⟨"b", "https://l1.example/", "e", "dom", "https://img.example/"⟩

/-- Well-formed article, title `"d"`, link `l2`. -/
def articleK2 : Article :=
  ⟨"d", "https://l2.example/", "e", "dom", "https://img.example/"⟩

/-- Well-formed article, title `"a"`, link `l2`: shares its link with
`articleK2` but sorts before `articleK1`, so the set search never compares it
with `articleK2`. -/
def articleW : Article :=
  ⟨"a", "https://l2.example/", "e", "dom", "https://img.example/"⟩

end ArticleFilters

namespace BreakingNewsOps

/-- `BreakingNews::new_items`, result-aggregation part.  The per-market
headline requests run concurrently (`FuturesUnordered`); `results` is the
list of their outcomes in completion order (join-handle panics, which the
source silently skips, are not represented).  Successful batches are
concatenated in completion order, failures are pushed onto an error list. -/
def collect_results (results : List (Except ε (List α))) : List α × List ε :=
  results.foldl
    (fun acc r =>
      match r with
      | .ok batch => (acc.1 ++ batch, acc.2)
      | .error e => (acc.1, acc.2 ++ [e]))
    ([], [])

/-- `BreakingNews::new_items` final decision:
`if articles.is_empty() && !errors.is_empty() { Err(errors.pop().unwrap()) }
else { Ok(articles) }` — the error surfaced is the last one pushed. -/
def new_items (results : List (Except ε (List α))) : Except ε (List α) :=
  match (collect_results results).1, (collect_results results).2.getLast? with
  | [], some e => .error e
  | arts, _ => .ok arts

end BreakingNewsOps

namespace EngineModel

/-- Stack identifiers (`stack::Id` is a UUID; only equality is used). -/
abbrev StackId := Nat

/-- Documents are opaque to the orchestration layer. -/
abbrev Doc := Nat

/-- `engine::Error`, restricted to the variants produced by the update cycle;
error payloads are opaque (numbered). -/
inductive EngErr where
  | stackOpFailed : Nat → EngErr
  | ranker : Nat → EngErr
  | document : Nat → EngErr
  | errors : List EngErr → EngErr

/-- A `Stack`: its id and its ordered document buffer (`StackData.documents`). -/
structure MStack where
  id : StackId
  docs : List Doc
  deriving Repr, DecidableEq

/-- One iteration of the `update_stacks` loop body for a single stack.
The fallible fetch→filter→embed pipeline (`new_items`, `filter_articles`,
`compute_smbert`, `document_from_article`) is summarised by `prepare`, whose
errors arrive already wrapped as `engine::Error`s, exactly as in the source
(`StackOpFailed`/`Ranker`/`Document`).  Modelled from the spec: the interior
of `Stack::update` (merge then rank, `stack/mod.rs` is not part of the
sources provided) is `rankFn ∘ mergeFn`, and a failed update leaves the stack
unchanged; `retain_top` truncates to the first `keep_top` ranked documents. -/
def update_one (request_new keep_top : Nat)
    (prepare : StackId → Except EngErr (List Doc))
    (mergeFn : List Doc → List Doc → List Doc)
    (rankFn : List Doc → Except Nat (List Doc))
    (s : MStack) : MStack × List EngErr :=
  if s.docs.length ≤ request_new then
    match prepare s.id with
    | .error e => (s, [e])
    | .ok newDocs =>
      match rankFn (mergeFn s.docs newDocs) with
      | .error e => (s, [EngErr.stackOpFailed e])
      | .ok ranked => ({ s with docs := ranked.take keep_top }, [])
  else (s, [])

/-- `Engine::update_stacks`: iterate over all the engine's stack buffers,
collecting per-stack
errors into a vector instead of short-circuiting; return `Ok(())` when the
vector stayed empty and `Err(Errors(vec))` otherwise. -/
def update_stacks (request_new keep_top : Nat)
    (prepare : StackId → Except EngErr (List Doc))
    (mergeFn : List Doc → List Doc → List Doc)
    (rankFn : List Doc → Except Nat (List Doc))
    (sts : List MStack) : List MStack × Except EngErr Unit :=
  let r := sts.foldl
    (fun acc s =>
      let u := update_one request_new keep_top prepare mergeFn rankFn s
      (acc.1 ++ [u.1], acc.2 ++ u.2))
    (([], []) : List MStack × List EngErr)
  (r.1, if r.2.isEmpty then .ok () else .error (.errors r.2))

/-- `Engine::get_feed_documents`: draw documents via the selection engine
(whose outcome `sel` is injected — `mab.rs` is an external part of the
repository not in the provided sources), then run the update cycle; both
fallible calls use `?`, so an update failure is returned as the error and the
drawn documents are dropped.  The mutated stack buffers persist either way, since
the update writes through the engine's state lock before the error
propagates. -/
def get_feed_documents (sel : Except EngErr (List Doc))
    (request_new keep_top : Nat)
    (prepare : StackId → Except EngErr (List Doc))
    (mergeFn : List Doc → List Doc → List Doc)
    (rankFn : List Doc → Except Nat (List Doc))
    (sts : List MStack) : Except EngErr (List Doc) × List MStack :=
  match sel with
  | .error e => (.error e, sts)
  | .ok docs =>
    let r := update_stacks request_new keep_top prepare mergeFn rankFn sts
    match r.2 with
    | .ok _ => (.ok docs, r.1)
    | .error e => (.error e, r.1)

/-- Per-stack persisted auxiliary data (`StackData`), reduced to its document
buffer; `StackData::default()` is the empty buffer. -/
abbrev StackData := List Doc

/-- The serialized engine section: `bincode` (an external collaborator) maps
the id→data map to bytes and back; the blob is modelled as the map itself,
an association list in the engine's iteration order. -/
abbrev Blob := List (StackId × StackData)

/-- `Engine::serialize`, stack section: the map `id ↦ stack.data`. -/
def serialize_stacks (sts : List MStack) : Blob :=
  sts.map fun s => (s.id, s.docs)

/-- `HashMap::remove`: the value stored under `id`, if any, and the map
without that entry. -/
def removeEntry : Blob → StackId → Option StackData × Blob
  | [], _ => (none, [])
  | (k, v) :: rest, id =>
    if k = id then (some v, rest)
    else
      let r := removeEntry rest id
      (r.1, (k, v) :: r.2)

/-- `Engine::from_state`, stack reconstruction: for each configured pipeline
id (in `stack_ops` order) take `stack_data.remove(&id).unwrap_or_default()`;
blob entries for ids without a pipeline are never read and are dropped.
Modelled from the spec: `Stack::new(data, ops)` (not in the provided sources)
succeeds and stores the data unchanged. -/
def from_state_stacks : Blob → List StackId → List MStack
  | _, [] => []
  | blob, id :: rest =>
    let r := removeEntry blob id
    ⟨id, r.1.getD []⟩ :: from_state_stacks r.2 rest

/-- Lookup of a blob entry by id (first match), as `HashMap` lookup. -/
def lookupBlob (blob : Blob) (id : StackId) : Option StackData :=
  (blob.find? fun p => p.1 == id).map (·.2)

/-- The `StackData` an engine holds for a given stack id. -/
def lookupData (sts : List MStack) (id : StackId) : Option StackData :=
  (sts.find? fun s => s.id == id).map (·.docs)

end EngineModel

namespace Semantic

/-- An `app_engine` `Document`, restricted to the fields the semantic filter
reads: its embedding, publication instant (whole seconds, UTC) and source
domain; `id` keeps distinct documents distinguishable. -/
structure SemDoc where
  id : Nat
  embedding : List ℚ
  pubDate : ℤ
  source : String
  deriving Repr, DecidableEq

/-- The condensed (upper-triangular `i < j`, row-major) pair list underlying
`condensed_cosine_similarity` and `condensed_date_distance`. -/
def condensedPairs : List α → List (α × α)
  | [] => []
  | x :: xs => (xs.map fun y => (x, y)) ++ condensedPairs xs

/-- `condensed_cosine_similarity`.  The cosine itself (`xayn_ai_coi`, whose
definition is not among the provided sources) is injected as `cosSim`. -/
def condensed_cosine_similarity (cosSim : List ℚ → List ℚ → ℚ)
    (embeddings : List (List ℚ)) : List ℚ :=
  (condensedPairs embeddings).map fun p => cosSim p.1 p.2

/-- `(this - other).num_days().abs()`: chrono's `num_days` divides the
difference in seconds by 86400 truncating toward zero. -/
def dayDistance (a b : ℤ) : ℚ :=
  (((a - b).tdiv 86400).natAbs : ℚ)

/-- `condensed_date_distance`. -/
def condensed_date_distance (dates : List ℤ) : List ℚ :=
  (condensedPairs dates).map fun p => dayDistance p.1 p.2

/-- `condensed_decay_factor`; `expQ` abstracts `f32::exp`. -/
def condensed_decay_factor (expQ : ℚ → ℚ) (date_distance : List ℚ)
    (max_days threshold : ℚ) : List ℚ :=
  let exp_max_days := expQ (-(1 / 10) * max_days)
  date_distance.map fun distance =>
    max ((exp_max_days - expQ (-(1 / 10) * distance)) / (exp_max_days - 1)) 0
      * (1 - threshold) + threshold

/-- `Itertools::minmax_by(..).into_option().unwrap_or_default()`: `(0, 0)` on
an empty list, otherwise the (min, max) pair of the elements. -/
def minmaxQ : List ℚ → ℚ × ℚ
  | [] => (0, 0)
  | x :: xs => xs.foldl (fun mm y => (min mm.1 y, max mm.2 y)) (x, x)

/-- `condensed_normalized_distance`: combine similarity and decay pairwise,
then min-max rescale with inverted polarity; when `max - min` is not positive
every pair is assigned distance `0`. -/
def condensed_normalized_distance (cosine_similarity decay_factor : List ℚ) :
    List ℚ :=
  let combined := (cosine_similarity.zip decay_factor).map fun p => p.1 * p.2
  let mm := minmaxQ combined
  let diff := mm.2 - mm.1
  if 0 < diff then combined.map fun dis => 1 - (dis - mm.1) / diff
  else List.replicate combined.length 0

/-- One merge step of a kodama dendrogram. -/
structure Step where
  cluster1 : Nat
  cluster2 : Nat
  dissimilarity : ℚ
  deriving Repr, DecidableEq

/-- A kodama dendrogram: the number of observations and the merge steps. -/
structure Dendrogram where
  observations : Nat
  steps : List Step
  deriving Repr, DecidableEq

/-- The `BTreeMap<usize, Vec<usize>>` of live clusters, as an association
list sorted by key. -/
abbrev ClusterMap := List (Nat × List Nat)

/-- `BTreeMap` lookup. -/
def btmLookup (m : ClusterMap) (k : Nat) : Option (List Nat) :=
  (m.find? fun p => p.1 == k).map (·.2)

/-- `BTreeMap::remove` (keys are unique, so dropping every entry with the key
is the removal of its single entry). -/
def btmErase (m : ClusterMap) (k : Nat) : ClusterMap :=
  m.filter fun p => p.1 ≠ k

/-- `BTreeMap::insert`, keeping the list sorted by key. -/
def btmInsert : ClusterMap → Nat → List Nat → ClusterMap
  | [], k, v => [(k, v)]
  | (k', v') :: rest, k, v =>
    if k < k' then (k, v) :: (k', v') :: rest
    else if k = k' then (k, v) :: rest
    else (k', v') :: btmInsert rest k v

/-- The initial cluster map: every sample in its own cluster. -/
def initClusters (n : Nat) : ClusterMap :=
  (List.range n).map fun x => (x, [x])

/-- One fold iteration of `cut_tree`/`find_n_clusters`: remove the two merged
clusters, insert their concatenation under the next fresh id.  The source
`unwrap`s the removed values; an absent id (impossible for a well-formed
dendrogram, a panic otherwise) is modelled by the empty cluster. -/
def mergeStep (acc : Nat × ClusterMap) (s : Step) : Nat × ClusterMap :=
  let c1 := (btmLookup acc.2 s.cluster1).getD []
  let m1 := btmErase acc.2 s.cluster1
  let c2 := (btmLookup m1 s.cluster2).getD []
  let m2 := btmErase m1 s.cluster2
  (acc.1 + 1, btmInsert m2 acc.1 (c1 ++ c2))

/-- `assign_labels`: clusters are numbered `0, 1, …` in key order and each
sample in a cluster receives its cluster's label; the label vector starts as
`vec![0; len]`. -/
def assign_labels (clusters : ClusterMap) (len : Nat) : List Nat :=
  (clusters.map Prod.snd).enum.foldl
    (fun labels p => p.2.foldl (fun ls s => ls.set s p.1) labels)
    (List.replicate len 0)

/-- `cut_tree`: take merge steps while their dissimilarity is strictly below
the threshold, then label the surviving clusters. -/
def cut_tree (d : Dendrogram) (max_dissimilarity : ℚ) : List Nat :=
  let taken := d.steps.takeWhile fun s => decide (s.dissimilarity < max_dissimilarity)
  let r := taken.foldl mergeStep (d.observations, initClusters d.observations)
  assign_labels r.2 d.observations

/-- `find_n_clusters`: merge while more than `n_clusters` clusters remain. -/
def findNAux (m : ClusterMap) (id n_clusters : Nat) : List Step → ClusterMap
  | [] => m
  | s :: rest =>
    if m.length ≤ n_clusters then m
    else findNAux (mergeStep (id, m) s).2 (id + 1) n_clusters rest

/-- `find_n_clusters`. -/
def find_n_clusters (d : Dendrogram) (n_clusters : Nat) : List Nat :=
  assign_labels (findNAux (initClusters d.observations) d.observations n_clusters d.steps)
    d.observations

/-- Well-formedness of a run of merge steps against the evolving cluster map:
each step merges two distinct, live cluster ids.  Kodama dendrograms satisfy
this by construction; the source `unwrap`s on it. -/
def okSteps (id : Nat) (m : ClusterMap) : List Step → Bool
  | [] => true
  | s :: rest =>
    (btmLookup m s.cluster1).isSome && (btmLookup m s.cluster2).isSome &&
      decide (s.cluster1 ≠ s.cluster2) &&
      okSteps (mergeStep (id, m) s).1 (mergeStep (id, m) s).2 rest

/-- `SemanticFilterConfig.criterion`. -/
inductive Criterion where
  | MaxDissimilarity : ℚ → Criterion
  | MaxClusters : Nat → Criterion
  deriving Repr, DecidableEq

/-- `SemanticFilterConfig`. -/
structure SemanticFilterConfig where
  max_days : ℚ
  threshold : ℚ
  criterion : Criterion
  deriving Repr, DecidableEq

/-- `SemanticFilterConfig::default()`. -/
def defaultConfig : SemanticFilterConfig :=
  ⟨10, 1 / 2, .MaxDissimilarity (1 / 2)⟩

/-- `normalized_distance`. -/
def normalized_distance (cosSim : List ℚ → List ℚ → ℚ) (expQ : ℚ → ℚ)
    (docs : List SemDoc) (config : SemanticFilterConfig) : List ℚ :=
  condensed_normalized_distance
    (condensed_cosine_similarity cosSim (docs.map (·.embedding)))
    (condensed_decay_factor expQ (condensed_date_distance (docs.map (·.pubDate)))
      config.max_days config.threshold)

/-- Modelled from the spec: `source_weight` (`stack/filters/source.rs` is not
among the provided sources) — "the highest configured source weight": the
weight configured for the document's source domain, defaulting to zero. -/
def source_weight (sources : List (String × ℤ)) (d : SemDoc) : ℤ :=
  ((sources.find? fun p => p.1 == d.source).map (·.2)).getD 0

/-- Lookup in the grouping map accumulator. -/
def lookupGroup (acc : List (Nat × SemDoc)) (label : Nat) : Option SemDoc :=
  (acc.find? fun p => p.1 == label).map (·.2)

/-- One step of `into_grouping_map().max_by_key(..)` (itertools): the first
document of a group seeds it; afterwards
`match compare(acc, val) { Less | Equal => val, Greater => acc }`, so a tie
on the key is resolved toward the later document.  The `HashMap` is modelled
as an association list in first-insertion key order. -/
def groupingUpdate (w : SemDoc → ℤ) (acc : List (Nat × SemDoc)) (label : Nat)
    (d : SemDoc) : List (Nat × SemDoc) :=
  match lookupGroup acc label with
  | none => acc ++ [(label, d)]
  | some cur =>
    acc.map fun p => if p.1 = label then (label, if w cur ≤ w d then d else cur) else p

/-- The grouping map of `filter_semantically`, folded over the
`izip!(labels, documents)` pairs. -/
def groupingFold (w : SemDoc → ℤ) (pairs : List (Nat × SemDoc)) :
    List (Nat × SemDoc) :=
  pairs.foldl (fun acc p => groupingUpdate w acc p.1 p.2) []

/-- The labels computed inside `filter_semantically` for a document list. -/
def semanticLabels (linkFn : List ℚ → Nat → Dendrogram)
    (cosSim : List ℚ → List ℚ → ℚ) (expQ : ℚ → ℚ)
    (config : SemanticFilterConfig) (docs : List SemDoc) : List Nat :=
  let dendrogram := linkFn (normalized_distance cosSim expQ docs config) docs.length
  match config.criterion with
  | .MaxDissimilarity m => cut_tree dendrogram m
  | .MaxClusters k => find_n_clusters dendrogram k

/-- `filter_semantically`: fewer than two documents are returned unchanged;
otherwise cluster by the chosen criterion and keep, per label, the grouping
map's representative.  `linkFn` abstracts `kodama::linkage` (external crate);
`into_values()` order (unspecified for a `HashMap`) is modelled as
first-insertion order of the labels. -/
def filter_semantically (linkFn : List ℚ → Nat → Dendrogram)
    (cosSim : List ℚ → List ℚ → ℚ) (expQ : ℚ → ℚ) (docs : List SemDoc)
    (sources : List (String × ℤ)) (config : SemanticFilterConfig) :
    List SemDoc :=
  if docs.length < 2 then docs
  else
    let labels := semanticLabels linkFn cosSim expQ config docs
    (groupingFold (source_weight sources) (labels.zip docs)).map Prod.snd

/-- `max_cosine_similarity`: empty when there are no cois, otherwise for each
document the maximal cosine similarity to any coi. -/
def max_cosine_similarity (cosSim : List ℚ → List ℚ → ℚ)
    (docs cois : List (List ℚ)) : List ℚ :=
  match cois with
  | [] => []
  | c :: cs => docs.map fun d => (cs.map (cosSim d)).foldl max (cosSim d c)

/-- `Vec::retain` driven by a prefix of keep-flags: the flag iterator is
advanced once per document and `unwrap_or(true)` keeps every document beyond
the flags (`retain.next().unwrap_or(true)`). -/
def retainWith : List SemDoc → List Bool → List SemDoc
  | [], _ => []
  | d :: ds, [] => d :: retainWith ds []
  | d :: ds, b :: bs => if b then d :: retainWith ds bs else retainWith ds bs

/-- `filter_too_similar`: drop each document whose maximal cosine similarity
to a coi exceeds the threshold. -/
def filter_too_similar (cosSim : List ℚ → List ℚ → ℚ) (docs : List SemDoc)
    (cois : List (List ℚ)) (threshold : ℚ) : List SemDoc :=
  retainWith docs
    ((max_cosine_similarity cosSim (docs.map (·.embedding)) cois).map
      fun similarity => decide (similarity ≤ threshold))

/-- Spec-side helper for the amended tie-break: the maximal-weight element of
a list, ties resolved toward the later occurrence. -/
def lastMaxBy (w : SemDoc → ℤ) : List SemDoc → Option SemDoc
  | [] => none
  | x :: xs =>
    match lastMaxBy w xs with
    | none => some x
    | some y => some (if w x ≤ w y then y else x)

/-- The documents of one cluster, in input order. -/
def groupOf (pairs : List (Nat × SemDoc)) (label : Nat) : List SemDoc :=
  (pairs.filter fun p => p.1 = label).map Prod.snd

/-- Modelled from the spec: `kodama::linkage` (external crate) restricted to
two observations, where every linkage method is forced to produce the single
merge of clusters 0 and 1 at the sole pairwise distance. -/
def linkagePair (dists : List ℚ) (n : Nat) : Dendrogram :=
  ⟨n, [⟨0, 1, dists.headD 0⟩]⟩

/-- Cosine similarity instance for the counterexample documents: both carry
the identical unit embedding `[1, 0]`, whose cosine with itself is `1`. -/
def cosSimOne : List ℚ → List ℚ → ℚ := fun _ _ => 1

/-- Exponential instance for the counterexample: only `exp 0 = 1` and a value
of `exp (-1)` strictly between 0 and 1 are consumed, and the latter cancels
in the decay quotient. -/
def expModel (q : ℚ) : ℚ :=
  if q = 0 then 1 else 1 / 3

/-- First counterexample document: embedding `[1, 0]`, epoch date. -/
def docA : SemDoc := ⟨0, [1, 0], 0, "s"⟩

/-- Second counterexample document: identical to `docA` except for its id. -/
def docB : SemDoc := ⟨1, [1, 0], 0, "s"⟩

end Semantic

namespace ArticleFilters

theorem btreeInsert_length_le (x : Article) (l : List Article) :
    (btreeInsert x l).length ≤ l.length + 1 := by
  induction l with
  | nil => simp [btreeInsert]
  | cons a rest ih =>
    unfold btreeInsert
    cases uaCmp x a with
    | gt => simpa using Nat.succ_le_succ ih
    | eq => simp
    | lt => simp

theorem btreeOfList_length_le (articles : List Article) :
    (btreeOfList articles).length ≤ articles.length := by
  suffices h : ∀ (l acc : List Article),
      (l.foldl (fun s a => btreeInsert a s) acc).length ≤ acc.length + l.length by
    simpa [btreeOfList] using h articles []
  intro l
  induction l with
  | nil => simp
  | cons a rest ih =>
    intro acc
    calc ((a :: rest).foldl (fun s a => btreeInsert a s) acc).length
        ≤ (btreeInsert a acc).length + rest.length := by
          simpa using ih (btreeInsert a acc)
      _ ≤ (acc.length + 1) + rest.length :=
          Nat.add_le_add_right (btreeInsert_length_le a acc) _
      _ = acc.length + (a :: rest).length := by
          simp [Nat.add_comm, Nat.add_assoc, Nat.add_left_comm]

theorem DuplicateFilter.length_le (history : List HistoricDocument)
    (stack : List StackDoc) (articles : List Article) :
    (DuplicateFilter.apply history stack articles).length ≤ articles.length := by
  unfold DuplicateFilter.apply
  exact le_trans (List.length_filter_le _ _) (btreeOfList_length_le articles)

/-- **C1, counterexample.**  The claim says the malformed filter runs before
the duplicate filter.  On `[articleM, articleV]` (same title, `articleM`
malformed) `CommonFilter::apply` first lets the duplicate filter keep only
`articleM`, which the malformed filter then removes — result `[]` — whereas
the claimed malformed-first order would keep `articleV`. -/
theorem commonFilter_order_counterexample :
    CommonFilter.apply (fun _ => true) [] [] [articleM, articleV] = [] ∧
    CommonFilter.specOrderApply (fun _ => true) [] [] [articleM, articleV]
      = [articleV] ∧
    ([] : List Article) ≠ [articleV] := by
  refine ⟨by decide, by decide, by decide⟩

/-- **C1 (amended).**  `CommonFilter::apply` composes the duplicate filter
first and the malformed filter second, and each stage may shrink but never
grow the article list. -/
theorem commonFilter_stage_order_and_shrink (urlOk : String → Bool)
    (history : List HistoricDocument) (stack : List StackDoc)
    (articles : List Article) :
    CommonFilter.apply urlOk history stack articles
      = MalformedFilter.apply urlOk (DuplicateFilter.apply history stack articles)
    ∧ (DuplicateFilter.apply history stack articles).length ≤ articles.length
    ∧ (CommonFilter.apply urlOk history stack articles).length
        ≤ (DuplicateFilter.apply history stack articles).length :=
  ⟨rfl, DuplicateFilter.length_le history stack articles,
    List.length_filter_le _ _⟩

/-- **C9, counterexample.**  `UniqueArticle`'s order is not transitive
(`articleW` and `articleK2` share a link yet both sort around `articleK1`),
so the `BTreeSet` search inserts `articleW` without ever comparing it with
`articleK2`: the output contains two articles with the same link. -/
theorem duplicateFilter_pairwise_counterexample :
    CommonFilter.apply (fun _ => true) [] [] [articleK1, articleK2, articleW]
      = [articleW, articleK1, articleK2] ∧
    ¬ List.Pairwise (fun a b : Article => a.link ≠ b.link ∧ a.title ≠ b.title)
        (CommonFilter.apply (fun _ => true) [] [] [articleK1, articleK2, articleW]) := by
  refine ⟨by decide, by decide⟩

/-- **C9 (amended).**  Every article returned by `CommonFilter::apply` has a
link different from every history url and every stack url, and a title
different from every history title and every stack title. -/
theorem commonFilter_no_history_stack_clash (urlOk : String → Bool)
    (history : List HistoricDocument) (stack : List StackDoc)
    (articles : List Article) :
    ∀ a ∈ CommonFilter.apply urlOk history stack articles,
      (∀ h ∈ history, a.link ≠ h.url ∧ a.title ≠ h.title) ∧
      (∀ s ∈ stack, a.link ≠ s.url ∧ a.title ≠ s.title) := by
  intro a ha
  have hdup : a ∈ DuplicateFilter.apply history stack articles :=
    List.mem_of_mem_filter ha
  unfold DuplicateFilter.apply at hdup
  have hpred := List.of_mem_filter hdup
  simp only [Bool.not_eq_true', Bool.or_eq_false_iff] at hpred
  obtain ⟨hurl, htitle⟩ := hpred
  have hurl' : a.link ∉ history.map (·.url) ++ stack.map (·.url) := by
    intro hmem
    simp [hmem] at hurl
  have htitle' : a.title ∉ history.map (·.title) ++ stack.map (·.title) := by
    intro hmem
    simp [hmem] at htitle
  constructor
  · intro h hh
    constructor
    · intro heq
      exact hurl' (by
        refine List.mem_append_left _ ?_
        exact heq ▸ List.mem_map_of_mem (·.url) hh)
    · intro heq
      exact htitle' (by
        refine List.mem_append_left _ ?_
        exact heq ▸ List.mem_map_of_mem (·.title) hh)
  · intro s hs
    constructor
    · intro heq
      exact hurl' (by
        refine List.mem_append_right _ ?_
        exact heq ▸ List.mem_map_of_mem (·.url) hs)
    · intro heq
      exact htitle' (by
        refine List.mem_append_right _ ?_
        exact heq ▸ List.mem_map_of_mem (·.title) hs)

/-- Witness for the amended C9 theorem at a concrete input. -/
theorem commonFilter_no_clash_witness :
    articleV.link ≠ "https://h.example/" ∧ articleV.title ≠ "ht" :=
  (commonFilter_no_history_stack_clash (fun _ => true)
      [⟨"https://h.example/", "ht"⟩] [] [articleV] articleV (by decide)).1
    ⟨"https://h.example/", "ht"⟩ (by decide)

end ArticleFilters

namespace BreakingNewsOps

/-- **C2, counterexample.**  With two failures in completion order the code
surfaces the second (`errors.pop()`), not the first; and a sub-fetch that
succeeds with an empty batch does not prevent the error path. -/
theorem new_items_counterexample :
    new_items [Except.error 1, Except.error 2] = (Except.error 2 : Except Nat (List Nat)) ∧
    new_items [Except.error 1, Except.error 2] ≠ (Except.error 1 : Except Nat (List Nat)) ∧
    new_items [Except.ok [], Except.error 5] = (Except.error 5 : Except Nat (List Nat)) := by
  refine ⟨rfl, ?_, rfl⟩
  intro h
  rw [show new_items [Except.error 1, Except.error 2]
      = (Except.error 2 : Except Nat (List Nat)) from rfl] at h
  injection h with h2
  exact absurd h2 (by decide)

/-- **C2 (amended).**  `new_items` returns the concatenation of the
successful batches whenever it is nonempty or no sub-fetch failed; when the
concatenation is empty and at least one sub-fetch failed it surfaces the
last collected failure (in completion order). -/
theorem new_items_amended (results : List (Except ε (List α))) :
    ((collect_results results).1 ≠ [] ∨ (collect_results results).2 = [] →
      new_items results = .ok (collect_results results).1) ∧
    ((collect_results results).1 = [] →
      ∀ e, (collect_results results).2.getLast? = some e →
        new_items results = .error e) := by
  constructor
  · intro h
    rcases h with h | h
    · unfold new_items
      cases harts : (collect_results results).1 with
      | nil => exact absurd harts h
      | cons a rest => simp [harts]
    · unfold new_items
      cases harts : (collect_results results).1 with
      | nil => simp [h]
      | cons a rest => simp
  · intro harts e hlast
    unfold new_items
    simp [harts, hlast]

/-- Witness for the amended C2 theorem: one nonempty success and one failure
yield the batch with the failure dropped. -/
theorem new_items_amended_witness :
    new_items [Except.ok [3], Except.error 9] = (Except.ok [3] : Except Nat (List Nat)) :=
  (new_items_amended ([Except.ok [3], Except.error 9] : List (Except Nat (List Nat)))).1
    (Or.inl (by decide))

end BreakingNewsOps

namespace EngineModel

/-- **C3, counterexample.**  The claim says a failing update cycle inside
`get_feed_documents` still hands the already-drawn documents to the caller
together with the aggregate error.  With one stack whose fetch pipeline
fails, the drawn batch `[42]` is dropped and only the aggregate error is
returned (`self.update_stacks(..).await?`). -/
theorem get_feed_documents_counterexample :
    (get_feed_documents (.ok [42]) 3 20 (fun _ => .error (.stackOpFailed 7))
        (· ++ ·) (fun l => .ok l) [⟨0, []⟩]).1
      = .error (.errors [.stackOpFailed 7]) ∧
    (get_feed_documents (.ok [42]) 3 20 (fun _ => .error (.stackOpFailed 7))
        (· ++ ·) (fun l => .ok l) [⟨0, []⟩]).1
      ≠ .ok [42] := by
  refine ⟨rfl, ?_⟩
  intro h
  rw [show (get_feed_documents (.ok [42]) 3 20 (fun _ => .error (.stackOpFailed 7))
      (· ++ ·) (fun l => .ok l) [⟨0, []⟩]).1
    = .error (.errors [.stackOpFailed 7]) from rfl] at h
  exact Except.noConfusion h

/-- **C3 (amended).**  When the update cycle triggered inside
`get_feed_documents` fails, the aggregate error is returned to the caller
and the documents drawn from the stacks are dropped; the stack state mutated
by the update cycle persists. -/
theorem get_feed_documents_error_drops_docs (sel : Except EngErr (List Doc))
    (docs : List Doc) (request_new keep_top : Nat)
    (prepare : StackId → Except EngErr (List Doc))
    (mergeFn : List Doc → List Doc → List Doc)
    (rankFn : List Doc → Except Nat (List Doc))
    (sts : List MStack) (e : EngErr)
    (hsel : sel = .ok docs)
    (hupd : (update_stacks request_new keep_top prepare mergeFn rankFn sts).2
      = .error e) :
    (get_feed_documents sel request_new keep_top prepare mergeFn rankFn sts).1
      = .error e ∧
    (get_feed_documents sel request_new keep_top prepare mergeFn rankFn sts).2
      = (update_stacks request_new keep_top prepare mergeFn rankFn sts).1 := by
  subst hsel
  unfold get_feed_documents
  simp [hupd]

/-- Witness for the amended C3 theorem at the counterexample instance. -/
theorem get_feed_documents_error_witness :
    (get_feed_documents (.ok [42]) 3 20 (fun _ => .error (.stackOpFailed 7))
        (· ++ ·) (fun l => .ok l) [⟨0, []⟩]).1
      = .error (.errors [.stackOpFailed 7]) ∧
    (get_feed_documents (.ok [42]) 3 20 (fun _ => .error (.stackOpFailed 7))
        (· ++ ·) (fun l => .ok l) [⟨0, []⟩]).2
      = (update_stacks 3 20 (fun _ => .error (.stackOpFailed 7))
          (· ++ ·) (fun l => .ok l) [⟨0, []⟩]).1 :=
  get_feed_documents_error_drops_docs (.ok [42]) [42] 3 20
    (fun _ => .error (.stackOpFailed 7)) (· ++ ·) (fun l => .ok l) [⟨0, []⟩]
    (.errors [.stackOpFailed 7]) rfl rfl

end EngineModel

namespace EngineModel

theorem lookupBlob_cons (k : StackId) (v : StackData) (rest : Blob) (id : StackId) :
    lookupBlob ((k, v) :: rest) id = if k = id then some v else lookupBlob rest id := by
  by_cases h : k = id
  · simp [lookupBlob, List.find?_cons_of_pos, h]
  · rw [lookupBlob, List.find?_cons_of_neg _ (by simpa using h), if_neg h]
    rfl

theorem lookupData_cons (s : MStack) (rest : List MStack) (id : StackId) :
    lookupData (s :: rest) id = if s.id = id then some s.docs else lookupData rest id := by
  by_cases h : s.id = id
  · simp [lookupData, List.find?_cons_of_pos, h]
  · rw [lookupData, List.find?_cons_of_neg _ (by simpa using h), if_neg h]
    rfl

theorem removeEntry_cons (k : StackId) (v : StackData) (rest : Blob) (id : StackId) :
    removeEntry ((k, v) :: rest) id
      = if k = id then (some v, rest)
        else ((removeEntry rest id).1, (k, v) :: (removeEntry rest id).2) := by
  by_cases h : k = id <;> simp [removeEntry, h]

theorem update_stacks_foldl_decomp (request_new keep_top : Nat)
    (prepare : StackId → Except EngErr (List Doc))
    (mergeFn : List Doc → List Doc → List Doc)
    (rankFn : List Doc → Except Nat (List Doc))
    (sts : List MStack) (accS : List MStack) (accE : List EngErr) :
    sts.foldl
      (fun acc s =>
        let u := update_one request_new keep_top prepare mergeFn rankFn s
        (acc.1 ++ [u.1], acc.2 ++ u.2))
      (accS, accE)
    = (accS ++ sts.map (fun s => (update_one request_new keep_top prepare mergeFn rankFn s).1),
       accE ++ sts.flatMap (fun s => (update_one request_new keep_top prepare mergeFn rankFn s).2)) := by
  induction sts generalizing accS accE with
  | nil => simp
  | cons s rest ih =>
    simp only [List.foldl_cons, List.map_cons, List.flatMap_cons]
    rw [ih]
    simp [List.append_assoc]

/-- **C5.**  `update_stacks` collects per-stack failures instead of
short-circuiting: the resulting stack list is the independent per-stack
update of every stack, the cycle returns `Ok(())` iff no stack contributed
an error, a nonempty error collection is returned as the single aggregate
`Errors(..)` value, and a stack whose update succeeded holds its merged,
re-ranked, truncated document buffer. -/
theorem update_stacks_collects_failures (request_new keep_top : Nat)
    (prepare : StackId → Except EngErr (List Doc))
    (mergeFn : List Doc → List Doc → List Doc)
    (rankFn : List Doc → Except Nat (List Doc))
    (sts : List MStack) :
    (update_stacks request_new keep_top prepare mergeFn rankFn sts).1
      = sts.map (fun s => (update_one request_new keep_top prepare mergeFn rankFn s).1)
    ∧ ((update_stacks request_new keep_top prepare mergeFn rankFn sts).2 = .ok ()
        ↔ (sts.flatMap fun s => (update_one request_new keep_top prepare mergeFn rankFn s).2) = [])
    ∧ ((sts.flatMap fun s => (update_one request_new keep_top prepare mergeFn rankFn s).2) ≠ [] →
        (update_stacks request_new keep_top prepare mergeFn rankFn sts).2
          = .error (.errors (sts.flatMap fun s =>
              (update_one request_new keep_top prepare mergeFn rankFn s).2)))
    ∧ (∀ s newDocs ranked, s.docs.length ≤ request_new →
        prepare s.id = .ok newDocs →
        rankFn (mergeFn s.docs newDocs) = .ok ranked →
        (update_one request_new keep_top prepare mergeFn rankFn s)
          = ({ s with docs := ranked.take keep_top }, [])) := by
  have hd := update_stacks_foldl_decomp request_new keep_top prepare mergeFn rankFn sts [] []
  refine ⟨?_, ?_, ?_, ?_⟩
  · show (sts.foldl _ (([], []) : List MStack × List EngErr)).1 = _
    rw [hd]
    simp
  · show (if (sts.foldl _ (([], []) : List MStack × List EngErr)).2.isEmpty
        then (.ok () : Except EngErr Unit) else .error (.errors _)) = .ok () ↔ _
    rw [hd]
    simp only [List.nil_append]
    cases h : (sts.flatMap fun s => (update_one request_new keep_top prepare mergeFn rankFn s).2) with
    | nil => simp [h]
    | cons e rest => simp [h]
  · intro hne
    show (if (sts.foldl _ (([], []) : List MStack × List EngErr)).2.isEmpty
        then (.ok () : Except EngErr Unit) else .error (.errors _)) = _
    rw [hd]
    simp only [List.nil_append]
    cases h : (sts.flatMap fun s => (update_one request_new keep_top prepare mergeFn rankFn s).2) with
    | nil => exact absurd h hne
    | cons e rest => simp [h]
  · intro s newDocs ranked hlen hprep hrank
    unfold update_one
    simp [hlen, hprep, hrank]

/-- Witness for C5: one idle stack, a successful fetch of `[5]` and a
trivially successful rank give an `Ok` cycle with the merged, truncated
buffer in place. -/
theorem update_stacks_collects_failures_witness :
    (update_stacks 3 2 (fun _ => .ok [5]) (· ++ ·) (fun l => .ok l) [⟨0, []⟩]).2
      = .ok () ∧
    update_one 3 2 (fun _ => .ok [5]) (· ++ ·) (fun l => .ok l) ⟨0, []⟩
      = (⟨0, [5]⟩, []) := by
  have h := update_stacks_collects_failures 3 2 (fun _ => .ok [5]) (· ++ ·)
    (fun l => .ok l) [⟨0, []⟩]
  exact ⟨h.2.1.mpr rfl, h.2.2.2 ⟨0, []⟩ [5] [5] (by decide) rfl rfl⟩

theorem removeEntry_fst (blob : Blob) (id : StackId) :
    (removeEntry blob id).1 = lookupBlob blob id := by
  induction blob with
  | nil => rfl
  | cons p rest ih =>
    obtain ⟨k, v⟩ := p
    rw [removeEntry_cons, lookupBlob_cons]
    by_cases h : k = id
    · simp [h]
    · simpa [h] using ih

theorem removeEntry_snd_lookup (blob : Blob) (id id' : StackId) (h : id' ≠ id) :
    lookupBlob (removeEntry blob id).2 id' = lookupBlob blob id' := by
  induction blob with
  | nil => rfl
  | cons p rest ih =>
    obtain ⟨k, v⟩ := p
    by_cases hk : k = id
    · subst hk
      rw [show (removeEntry ((k, v) :: rest) k).2 = rest from by
        simp [removeEntry_cons]]
      rw [lookupBlob_cons, if_neg (Ne.symm h)]
    · rw [show (removeEntry ((k, v) :: rest) id).2
          = (k, v) :: (removeEntry rest id).2 from by simp [removeEntry_cons, hk]]
      rw [lookupBlob_cons, lookupBlob_cons]
      by_cases hk' : k = id'
      · simp [hk']
      · simp only [if_neg hk']
        exact ih

theorem from_state_stacks_ids (blob : Blob) (ops : List StackId) :
    (from_state_stacks blob ops).map (·.id) = ops := by
  induction ops generalizing blob with
  | nil => rfl
  | cons id rest ih => simp [from_state_stacks, ih]

theorem from_state_stacks_lookup (ops : List StackId) (blob : Blob)
    (id : StackId) (hnd : ops.Nodup) (hmem : id ∈ ops) :
    lookupData (from_state_stacks blob ops) id
      = some ((lookupBlob blob id).getD []) := by
  induction ops generalizing blob with
  | nil => cases hmem
  | cons o rest ih =>
    rw [show from_state_stacks blob (o :: rest)
        = ⟨o, (removeEntry blob o).1.getD []⟩
          :: from_state_stacks (removeEntry blob o).2 rest from rfl]
    rw [lookupData_cons]
    rcases List.mem_cons.mp hmem with h | h
    · subst h
      rw [if_pos rfl, removeEntry_fst]
    · have ho : o ≠ id := by
        intro he
        subst he
        exact (List.nodup_cons.mp hnd).1 h
      rw [if_neg ho, ih (removeEntry blob o).2 (List.nodup_cons.mp hnd).2 h,
        removeEntry_snd_lookup blob o id (Ne.symm ho)]

theorem from_state_stacks_not_mem (blob : Blob) (ops : List StackId)
    (id : StackId) (hmem : id ∉ ops) :
    lookupData (from_state_stacks blob ops) id = none := by
  rw [lookupData, List.find?_eq_none.mpr, Option.map_none']
  intro s hs
  have hsid : s.id ∈ ops := by
    rw [← from_state_stacks_ids blob ops]
    exact List.mem_map_of_mem (·.id) hs
  intro hbeq
  rw [beq_iff_eq.mp hbeq] at hsid
  exact hmem hsid

theorem lookupBlob_serialize (sts : List MStack) (s : MStack)
    (hnd : (sts.map (·.id)).Nodup) (hs : s ∈ sts) :
    lookupBlob (serialize_stacks sts) s.id = some s.docs := by
  induction sts with
  | nil => cases hs
  | cons t rest ih =>
    simp only [List.map_cons] at hnd
    rw [show serialize_stacks (t :: rest)
        = (t.id, t.docs) :: serialize_stacks rest from rfl, lookupBlob_cons]
    rcases List.mem_cons.mp hs with h | h
    · subst h
      rw [if_pos rfl]
    · have ht : t.id ≠ s.id := by
        intro he
        have hmm : s.id ∈ rest.map (·.id) := List.mem_map_of_mem (·.id) h
        rw [← he] at hmm
        exact (List.nodup_cons.mp hnd).1 hmm
      rw [if_neg ht]
      exact ih (List.nodup_cons.mp hnd).2 h

theorem lookupBlob_serialize_none (sts : List MStack) (id : StackId)
    (h : id ∉ sts.map (·.id)) :
    lookupBlob (serialize_stacks sts) id = none := by
  rw [lookupBlob, List.find?_eq_none.mpr, Option.map_none']
  intro p hp
  obtain ⟨s, hs, rfl⟩ := List.mem_map.mp hp
  intro hbeq
  simp only [beq_iff_eq] at hbeq
  rw [← hbeq] at h
  exact h (List.mem_map_of_mem (·.id) hs)

/-- **C4.**  With the configured pipeline ids and the engine's stack ids both
duplicate-free: (1) `from_state(serialize())` reproduces the engine's
`StackData` for every stack id that still has a pipeline; (2) blob entries
whose id has no pipeline are dropped; (3) pipeline ids absent from the blob
start from the default (empty) `StackData`. -/
theorem from_state_serialize_round_trip (sts : List MStack) (ops : List StackId)
    (hnd : (sts.map (·.id)).Nodup) (hops : ops.Nodup) :
    (∀ s ∈ sts, s.id ∈ ops →
      lookupData (from_state_stacks (serialize_stacks sts) ops) s.id
        = some s.docs)
    ∧ (∀ id, id ∉ ops →
      lookupData (from_state_stacks (serialize_stacks sts) ops) id = none)
    ∧ (∀ id ∈ ops, id ∉ sts.map (·.id) →
      lookupData (from_state_stacks (serialize_stacks sts) ops) id = some []) := by
  refine ⟨?_, ?_, ?_⟩
  · intro s hs hmem
    rw [from_state_stacks_lookup ops (serialize_stacks sts) s.id hops hmem,
      lookupBlob_serialize sts s hnd hs]
    rfl
  · intro id hmem
    exact from_state_stacks_not_mem (serialize_stacks sts) ops id hmem
  · intro id hmem hnotin
    rw [from_state_stacks_lookup ops (serialize_stacks sts) id hops hmem,
      lookupBlob_serialize_none sts id hnotin]
    rfl

/-- Witness for C4: two stacks, pipelines `[1, 0, 2]` (same set plus a new
pipeline `2`); stack 0 keeps its data, pipeline 2 defaults to empty, and an
id without a pipeline resolves to nothing. -/
theorem from_state_serialize_round_trip_witness :
    lookupData (from_state_stacks (serialize_stacks [⟨0, [1]⟩, ⟨1, []⟩]) [1, 0, 2]) 0
      = some [1] ∧
    lookupData (from_state_stacks (serialize_stacks [⟨0, [1]⟩, ⟨1, []⟩]) [1, 0, 2]) 2
      = some [] ∧
    lookupData (from_state_stacks (serialize_stacks [⟨0, [1]⟩, ⟨1, []⟩]) [1, 0, 2]) 5
      = none := by
  have h := from_state_serialize_round_trip [⟨0, [1]⟩, ⟨1, []⟩] [1, 0, 2]
    (by decide) (by decide)
  exact ⟨h.1 ⟨0, [1]⟩ (by decide) (by decide), h.2.2 2 (by decide) (by decide),
    h.2.1 5 (by decide)⟩

end EngineModel

namespace Semantic

theorem minmaxQ_all_eq (x : ℚ) (xs : List ℚ) (h : ∀ y ∈ xs, y = x) :
    minmaxQ (x :: xs) = (x, x) := by
  suffices hfold : ∀ l : List ℚ, (∀ y ∈ l, y = x) →
      l.foldl (fun mm y => (min mm.1 y, max mm.2 y)) (x, x) = (x, x) from
    hfold xs h
  intro l
  induction l with
  | nil => intro _; rfl
  | cons y ys ih =>
    intro hy
    have hyx : y = x := hy y (List.mem_cons_self y ys)
    simp only [List.foldl_cons, hyx, min_self, max_self]
    exact ih fun z hz => hy z (List.mem_cons_of_mem y hz)

theorem minmaxQ_diff_zero (l : List ℚ) (h : ∀ x ∈ l, ∀ y ∈ l, x = y) :
    (minmaxQ l).2 - (minmaxQ l).1 = 0 := by
  cases l with
  | nil => simp [minmaxQ]
  | cons x xs =>
    rw [minmaxQ_all_eq x xs fun y hy =>
      h y (List.mem_cons_of_mem x hy) x (List.mem_cons_self x xs)]
    simp

/-- **C7.**  When all combined similarity-times-decay values are equal (in
particular with fewer than two documents, identical embeddings and dates, or
fully decayed pairs), `condensed_normalized_distance` takes the degenerate
branch and returns distance `0` for every pair — no division by zero, no
error.  `max - min` of equal values is exactly `0` in `f32` as well, so the
branch condition is exact under the `ℚ` model. -/
theorem condensed_normalized_distance_degenerate
    (cosine_similarity decay_factor : List ℚ)
    (h : ∀ x ∈ (cosine_similarity.zip decay_factor).map (fun p => p.1 * p.2),
      ∀ y ∈ (cosine_similarity.zip decay_factor).map (fun p => p.1 * p.2),
        x = y) :
    condensed_normalized_distance cosine_similarity decay_factor
      = List.replicate ((cosine_similarity.zip decay_factor).length) 0 := by
  unfold condensed_normalized_distance
  simp only [minmaxQ_diff_zero _ h, lt_irrefl, if_false, List.length_map]

/-- Witness for C7: two pairs with equal combined value give `[0, 0]`. -/
theorem condensed_normalized_distance_degenerate_witness :
    condensed_normalized_distance [1/2, 1/2] [2, 2] = [0, 0] := by
  have h := condensed_normalized_distance_degenerate [1/2, 1/2] [2, 2] (by
    intro x hx y hy
    simp only [List.zip_cons_cons, List.zip_nil_right, List.map_cons,
      List.map_nil, List.mem_cons, List.not_mem_nil, or_false] at hx hy
    rcases hx with rfl | rfl <;> rcases hy with h | h <;> rw [h])
  exact h

theorem retainWith_nil_flags (docs : List SemDoc) : retainWith docs [] = docs := by
  induction docs with
  | nil => rfl
  | cons d ds ih => simp [retainWith, ih]

/-- **C10.**  With no cois, `max_cosine_similarity` returns the empty vector,
every `retain.next()` is `None`, and `filter_too_similar` keeps all documents
in their original order. -/
theorem filter_too_similar_no_cois (cosSim : List ℚ → List ℚ → ℚ)
    (docs : List SemDoc) (threshold : ℚ) :
    filter_too_similar cosSim docs [] threshold = docs := by
  unfold filter_too_similar max_cosine_similarity
  simp [retainWith_nil_flags]

end Semantic

namespace Semantic

theorem takeWhile_eq_nil_of_all_false (p : Step → Bool) (l : List Step)
    (h : ∀ x ∈ l, p x = false) : l.takeWhile p = [] := by
  cases l with
  | nil => rfl
  | cons x xs =>
    rw [List.takeWhile_cons, h x (List.mem_cons_self x xs)]
    rfl

theorem takeWhile_eq_self_of_all_true (p : Step → Bool) (l : List Step)
    (h : ∀ x ∈ l, p x = true) : l.takeWhile p = l := by
  induction l with
  | nil => rfl
  | cons x xs ih =>
    rw [List.takeWhile_cons, h x (List.mem_cons_self x xs)]
    simpa using ih fun y hy => h y (List.mem_cons_of_mem x hy)

theorem set_zero_of_all_zero (l : List Nat) (h : ∀ x ∈ l, x = 0) (i : Nat) :
    l.set i 0 = l := by
  induction l generalizing i with
  | nil => rfl
  | cons a as ih =>
    cases i with
    | zero => rw [List.set_cons_zero, h a (List.mem_cons_self a as)]
    | succ j =>
      rw [List.set_cons_succ, ih (fun x hx => h x (List.mem_cons_of_mem a hx)) j]

theorem foldl_set_zero (v : List Nat) (l : List Nat) (h : ∀ x ∈ l, x = 0) :
    v.foldl (fun ls s => ls.set s 0) l = l := by
  induction v generalizing l with
  | nil => rfl
  | cons s rest ih =>
    rw [List.foldl_cons, set_zero_of_all_zero l h s]
    exact ih l h

theorem assign_labels_single (k : Nat) (v : List Nat) (n : Nat) :
    assign_labels [(k, v)] n = List.replicate n 0 := by
  unfold assign_labels
  rw [show ([(k, v)].map Prod.snd).enum = [(0, v)] from rfl]
  rw [List.foldl_cons, List.foldl_nil]
  exact foldl_set_zero v (List.replicate n 0) fun x hx =>
    (List.eq_of_mem_replicate hx)

end Semantic

namespace Semantic

theorem btmLookup_isSome_iff (m : ClusterMap) (k : Nat) :
    (btmLookup m k).isSome = true ↔ k ∈ m.map Prod.fst := by
  induction m with
  | nil => simp [btmLookup]
  | cons p rest ih =>
    obtain ⟨k', v'⟩ := p
    by_cases h : k' = k
    · subst h
      simp [btmLookup, List.find?_cons_of_pos]
    · rw [show btmLookup ((k', v') :: rest) k = btmLookup rest k from by
        rw [btmLookup, List.find?_cons_of_neg _ (by simpa using h)]; rfl]
      simp only [List.map_cons, List.mem_cons]
      rw [ih]
      constructor
      · exact Or.inr
      · rintro (he | hm)
        · exact absurd he.symm h
        · exact hm

theorem map_fst_filter_ne (l : List (Nat × List Nat)) (k : Nat) :
    (l.filter fun p => p.1 ≠ k).map Prod.fst
      = (l.map Prod.fst).filter (fun x => x ≠ k) := by
  induction l with
  | nil => rfl
  | cons p rest ih =>
    by_cases h : p.1 = k
    · rw [List.filter_cons_of_neg (by simpa using h), List.map_cons,
        List.filter_cons_of_neg (by simpa using h)]
      exact ih
    · rw [List.filter_cons_of_pos (by simpa using h), List.map_cons,
        List.map_cons, List.filter_cons_of_pos (by simpa using h), ih]

theorem keys_btmErase (m : ClusterMap) (k : Nat) :
    (btmErase m k).map Prod.fst = (m.map Prod.fst).filter (fun x => x ≠ k) :=
  map_fst_filter_ne m k

theorem length_filter_ne_of_nodup (l : List Nat) (k : Nat) (hnd : l.Nodup)
    (hk : k ∈ l) : (l.filter fun x => x ≠ k).length + 1 = l.length := by
  induction l with
  | nil => cases hk
  | cons a rest ih =>
    by_cases h : a = k
    · subst h
      rw [List.filter_cons_of_neg (by simp)]
      have hself : List.filter (fun x => decide (x ≠ a)) rest = rest := by
        rw [List.filter_eq_self]
        intro x hx
        simp only [ne_eq, decide_eq_true_eq]
        intro he
        exact (List.nodup_cons.mp hnd).1 (he ▸ hx)
      rw [hself]
      simp
    · have hkrest : k ∈ rest := by
        rcases List.mem_cons.mp hk with he | hm
        · exact absurd he.symm h
        · exact hm
      rw [List.filter_cons_of_pos (by simpa using h)]
      have := ih (List.nodup_cons.mp hnd).2 hkrest
      simp only [List.length_cons]
      omega

theorem btmErase_length (m : ClusterMap) (k : Nat)
    (hnd : (m.map Prod.fst).Nodup) (hk : k ∈ m.map Prod.fst) :
    (btmErase m k).length + 1 = m.length := by
  have h1 : (btmErase m k).length = ((btmErase m k).map Prod.fst).length :=
    (List.length_map _ _).symm
  rw [h1, keys_btmErase, length_filter_ne_of_nodup _ k hnd hk, List.length_map]

theorem btmInsert_keys_perm (m : ClusterMap) (k : Nat) (v : List Nat) :
    ((btmInsert m k v).map Prod.fst).Perm (k :: m.map Prod.fst)
      ∨ k ∈ m.map Prod.fst := by
  induction m with
  | nil => exact Or.inl (by simp [btmInsert])
  | cons p rest ih =>
    obtain ⟨k', v'⟩ := p
    by_cases h1 : k < k'
    · exact Or.inl (by simp [btmInsert, h1])
    · by_cases h2 : k = k'
      · exact Or.inr (by simp [h2])
      · rcases ih with hperm | hmem
        · refine Or.inl ?_
          rw [show btmInsert ((k', v') :: rest) k v
              = (k', v') :: btmInsert rest k v from by
            simp [btmInsert, h1, h2]]
          rw [List.map_cons, List.map_cons]
          exact (hperm.cons k').trans (List.Perm.swap k k' (rest.map Prod.fst))
        · exact Or.inr (by
            rw [List.map_cons, List.mem_cons]
            exact Or.inr hmem)

theorem btmInsert_length (m : ClusterMap) (k : Nat) (v : List Nat)
    (h : k ∉ m.map Prod.fst) : (btmInsert m k v).length = m.length + 1 := by
  rcases btmInsert_keys_perm m k v with hperm | hmem
  · have := hperm.length_eq
    simpa using this
  · exact absurd hmem h

theorem mergeStep_facts (id : Nat) (m : ClusterMap) (s : Step)
    (hnd : (m.map Prod.fst).Nodup) (hb : ∀ k ∈ m.map Prod.fst, k < id)
    (h1 : (btmLookup m s.cluster1).isSome = true)
    (h2 : (btmLookup m s.cluster2).isSome = true)
    (hne : s.cluster1 ≠ s.cluster2) :
    (mergeStep (id, m) s).2.length + 1 = m.length
      ∧ ((mergeStep (id, m) s).2.map Prod.fst).Nodup
      ∧ (∀ k ∈ (mergeStep (id, m) s).2.map Prod.fst, k < id + 1) := by
  have hm1 : s.cluster1 ∈ m.map Prod.fst := (btmLookup_isSome_iff m _).mp h1
  have hm2 : s.cluster2 ∈ m.map Prod.fst := (btmLookup_isSome_iff m _).mp h2
  set m1 := btmErase m s.cluster1 with hm1def
  set m2 := btmErase m1 s.cluster2 with hm2def
  have hkeys1 : m1.map Prod.fst = (m.map Prod.fst).filter (fun x => x ≠ s.cluster1) :=
    keys_btmErase m s.cluster1
  have hnd1 : (m1.map Prod.fst).Nodup := by
    rw [hkeys1]; exact hnd.filter _
  have hmem21 : s.cluster2 ∈ m1.map Prod.fst := by
    rw [hkeys1]
    refine List.mem_filter.mpr ⟨hm2, ?_⟩
    simpa using Ne.symm hne
  have hlen1 : m1.length + 1 = m.length := btmErase_length m s.cluster1 hnd hm1
  have hkeys2 : m2.map Prod.fst = (m1.map Prod.fst).filter (fun x => x ≠ s.cluster2) :=
    keys_btmErase m1 s.cluster2
  have hnd2 : (m2.map Prod.fst).Nodup := by
    rw [hkeys2]; exact hnd1.filter _
  have hlen2 : m2.length + 1 = m1.length := btmErase_length m1 s.cluster2 hnd1 hmem21
  have hsub2 : ∀ k ∈ m2.map Prod.fst, k ∈ m.map Prod.fst := by
    intro k hk
    rw [hkeys2] at hk
    have hk1 := List.mem_of_mem_filter hk
    rw [hkeys1] at hk1
    exact List.mem_of_mem_filter hk1
  have hid : id ∉ m2.map Prod.fst := by
    intro hk
    exact absurd (hb id (hsub2 id hk)) (lt_irrefl id)
  have hresult : (mergeStep (id, m) s).2 =
      btmInsert m2 id ((btmLookup m s.cluster1).getD []
        ++ (btmLookup m1 s.cluster2).getD []) := rfl
  refine ⟨?_, ?_, ?_⟩
  · rw [hresult, btmInsert_length m2 id _ hid]
    omega
  · rcases btmInsert_keys_perm m2 id ((btmLookup m s.cluster1).getD []
        ++ (btmLookup m1 s.cluster2).getD []) with hperm | hmem
    · rw [hresult]
      exact hperm.nodup_iff.mpr (List.nodup_cons.mpr ⟨hid, hnd2⟩)
    · exact absurd hmem hid
  · intro k hk
    rcases btmInsert_keys_perm m2 id ((btmLookup m s.cluster1).getD []
        ++ (btmLookup m1 s.cluster2).getD []) with hperm | hmem
    · rw [hresult] at hk
      rcases List.mem_cons.mp (hperm.mem_iff.mp hk) with he | hm
      · omega
      · exact Nat.lt_succ_of_lt (hb k (hsub2 k hm))
    · exact absurd hmem hid

theorem okSteps_foldl_length (steps : List Step) (id : Nat) (m : ClusterMap)
    (hok : okSteps id m steps = true)
    (hnd : (m.map Prod.fst).Nodup)
    (hb : ∀ k ∈ m.map Prod.fst, k < id) :
    (steps.foldl mergeStep (id, m)).2.length + steps.length = m.length := by
  induction steps generalizing id m with
  | nil => simp
  | cons s rest ih =>
    unfold okSteps at hok
    simp only [Bool.and_eq_true, decide_eq_true_eq] at hok
    obtain ⟨⟨⟨h1, h2⟩, hne⟩, hrest⟩ := hok
    obtain ⟨hlen, hnd', hb'⟩ := mergeStep_facts id m s hnd hb h1 h2 hne
    have H : (List.foldl mergeStep (mergeStep (id, m) s) rest).2.length
        + rest.length = (mergeStep (id, m) s).2.length :=
      ih (id + 1) (mergeStep (id, m) s).2 hrest hnd' hb'
    rw [List.foldl_cons]
    simp only [List.length_cons]
    omega

theorem initClusters_keys (n : Nat) :
    (initClusters n).map Prod.fst = List.range n := by
  rw [initClusters, List.map_map]
  rw [show (Prod.fst ∘ fun x : Nat => (x, ([x] : List Nat))) = id from rfl,
    List.map_id]

theorem initClusters_length (n : Nat) : (initClusters n).length = n := by
  simp [initClusters]

theorem initClusters_snd (n : Nat) :
    (initClusters n).map Prod.snd = (List.range n).map fun i => [i] := by
  rw [initClusters, List.map_map]
  rfl

theorem foldl_set_range (k : Nat) (b : List Nat) (h : k ≤ b.length) :
    ((List.range k).map fun i => ((i : Nat), ([i] : List Nat))).foldl
        (fun labels p => p.2.foldl (fun ls s => ls.set s p.1) labels) b
      = List.range k ++ b.drop k := by
  induction k with
  | zero => simp
  | succ k ih =>
    rw [List.range_succ, List.map_append, List.foldl_append,
      ih (Nat.le_of_succ_le h)]
    have hk : k < b.length := h
    simp only [List.map_cons, List.map_nil, List.foldl_cons, List.foldl_nil]
    rw [List.set_append]
    rw [if_neg (by simp)]
    simp only [List.length_range, Nat.sub_self]
    rw [List.drop_eq_getElem_cons hk, List.set_cons_zero]
    simp [List.append_assoc]

theorem assign_labels_init (n : Nat) :
    assign_labels (initClusters n) n = List.range n := by
  unfold assign_labels
  rw [initClusters_snd, List.enum_eq_zip_range]
  rw [show (List.range ((List.range n).map fun i => [i]).length)
      = (List.range n).map id from by simp]
  rw [List.zip_map' id (fun i => [i]) (List.range n)]
  have := foldl_set_range n (List.replicate n 0) (by simp)
  simpa using this

end Semantic

namespace Semantic

/-- **C8 (amended).**  For a well-formed dendrogram with nonnegative step
dissimilarities and the full `n - 1` merge steps: cutting at `0` takes no
merge and labels every document as its own cluster, and cutting at any
threshold strictly greater than every step's dissimilarity takes all merges
and yields a single cluster.  (A cutoff merely equal to the largest
dissimilarity does not suffice: the comparison is strict, see the
counterexample.) -/
theorem cut_tree_extremes (d : Dendrogram)
    (hok : okSteps d.observations (initClusters d.observations) d.steps = true)
    (hnn : ∀ s ∈ d.steps, 0 ≤ s.dissimilarity)
    (hcnt : d.steps.length + 1 = d.observations)
    (maxDis : ℚ) (hgt : ∀ s ∈ d.steps, s.dissimilarity < maxDis) :
    cut_tree d 0 = List.range d.observations ∧
    cut_tree d maxDis = List.replicate d.observations 0 := by
  constructor
  · show assign_labels
        ((d.steps.takeWhile fun s => decide (s.dissimilarity < 0)).foldl
          mergeStep (d.observations, initClusters d.observations)).2
        d.observations = List.range d.observations
    rw [takeWhile_eq_nil_of_all_false _ _ fun s hs => by
      simp only [decide_eq_false_iff_not, not_lt]
      exact hnn s hs]
    exact assign_labels_init d.observations
  · show assign_labels
        ((d.steps.takeWhile fun s => decide (s.dissimilarity < maxDis)).foldl
          mergeStep (d.observations, initClusters d.observations)).2
        d.observations = List.replicate d.observations 0
    rw [takeWhile_eq_self_of_all_true _ _ fun s hs => by
      simp only [decide_eq_true_eq]
      exact hgt s hs]
    have hlen := okSteps_foldl_length d.steps d.observations
      (initClusters d.observations) hok
      (by rw [initClusters_keys]; exact List.nodup_range _)
      (by rw [initClusters_keys]; intro k hk; exact List.mem_range.mp hk)
    rw [initClusters_length] at hlen
    rcases hm : (d.steps.foldl mergeStep
        (d.observations, initClusters d.observations)).2 with _ | ⟨⟨k, v⟩, rest⟩
    · rw [hm] at hlen
      simp only [List.length_nil] at hlen
      omega
    · rw [hm] at hlen
      simp only [List.length_cons] at hlen
      have hrest : rest = [] := List.eq_nil_of_length_eq_zero (by omega)
      subst hrest
      exact assign_labels_single k v d.observations

/-- Witness for C8 on a two-observation dendrogram with one merge at
dissimilarity `1`: cutoff `0` keeps both singleton clusters, cutoff `2`
(strictly above `1`) merges them. -/
theorem cut_tree_extremes_witness :
    cut_tree ⟨2, [⟨0, 1, 1⟩]⟩ 0 = [0, 1] ∧
    cut_tree ⟨2, [⟨0, 1, 1⟩]⟩ 2 = [0, 0] := by
  have h := cut_tree_extremes ⟨2, [⟨0, 1, 1⟩]⟩ (by decide)
    (by
      intro s hs
      rcases List.mem_cons.mp hs with rfl | hs'
      · exact (by decide : (0 : ℚ) ≤ 1)
      · cases hs')
    (by decide) 2
    (by
      intro s hs
      rcases List.mem_cons.mp hs with rfl | hs'
      · exact (by decide : (1 : ℚ) < 2)
      · cases hs')
  exact h

/-- **C8, counterexample.**  The dendrogram over two observations merges at
dissimilarity `1`, so the largest pairwise dissimilarity is `1`; cutting with
a cutoff equal to it (`≥` per the claim) takes no merge — the comparison in
`cut_tree` is strict — and two clusters remain instead of the claimed single
cluster. -/
theorem cut_tree_cutoff_eq_counterexample :
    cut_tree ⟨2, [⟨0, 1, 1⟩]⟩ 1 = [0, 1] ∧
    (cut_tree ⟨2, [⟨0, 1, 1⟩]⟩ 1).dedup.length = 2 := by
  constructor <;> decide

end Semantic

namespace Semantic

theorem lastMaxBy_eq_none_iff (w : SemDoc → ℤ) (g : List SemDoc) :
    lastMaxBy w g = none ↔ g = [] := by
  cases g with
  | nil => simp [lastMaxBy]
  | cons x xs =>
    simp only [lastMaxBy]
    cases lastMaxBy w xs <;> simp

theorem lastMaxBy_append_single (w : SemDoc → ℤ) (g : List SemDoc) (d : SemDoc) :
    lastMaxBy w (g ++ [d])
      = some (match lastMaxBy w g with
          | none => d
          | some y => if w y ≤ w d then d else y) := by
  induction g with
  | nil => rfl
  | cons x xs ih =>
    rw [List.cons_append]
    rw [show lastMaxBy w (x :: (xs ++ [d]))
        = match lastMaxBy w (xs ++ [d]) with
          | none => some x
          | some y => some (if w x ≤ w y then y else x) from rfl]
    rw [ih]
    cases hxs : lastMaxBy w xs with
    | none =>
      have hnil : xs = [] := (lastMaxBy_eq_none_iff w xs).mp hxs
      subst hnil
      rfl
    | some y =>
      simp only [lastMaxBy, hxs]
      by_cases hyd : w y ≤ w d <;> by_cases hxy : w x ≤ w y
      · have hxd : w x ≤ w d := le_trans hxy hyd
        simp [hyd, hxy, hxd]
      · simp [hyd, hxy]
      · simp [hyd, hxy]
      · have hxd : ¬ w x ≤ w d := by
          push_neg at hyd hxy ⊢
          exact lt_trans hyd hxy
        simp [hyd, hxy, hxd]

theorem groupOf_append_single (pairs : List (Nat × SemDoc)) (p : Nat × SemDoc)
    (label : Nat) :
    groupOf (pairs ++ [p]) label
      = if p.1 = label then groupOf pairs label ++ [p.2]
        else groupOf pairs label := by
  unfold groupOf
  rw [List.filter_append]
  by_cases h : p.1 = label
  · rw [List.filter_cons_of_pos (by simpa using h), List.filter_nil,
      List.map_append, if_pos h]
    rfl
  · rw [List.filter_cons_of_neg (by simpa using h), List.filter_nil,
      List.append_nil, if_neg h]

theorem groupOf_eq_nil_iff (pairs : List (Nat × SemDoc)) (label : Nat) :
    groupOf pairs label = [] ↔ label ∉ pairs.map Prod.fst := by
  unfold groupOf
  rw [List.map_eq_nil_iff, List.filter_eq_nil_iff]
  constructor
  · intro h hmem
    obtain ⟨p, hp, hpe⟩ := List.mem_map.mp hmem
    exact h p hp (by simpa using hpe)
  · intro h p hp hbeq
    have hpe : p.1 = label := by simpa using hbeq
    exact h (hpe ▸ List.mem_map_of_mem Prod.fst hp)

theorem lookupGroup_eq_none_iff (acc : List (Nat × SemDoc)) (label : Nat) :
    lookupGroup acc label = none ↔ label ∉ acc.map Prod.fst := by
  unfold lookupGroup
  rw [Option.map_eq_none', List.find?_eq_none]
  constructor
  · intro h hmem
    obtain ⟨p, hp, hpe⟩ := List.mem_map.mp hmem
    exact h p hp (by simpa using hpe)
  · intro h p hp hbeq
    have hpe : p.1 = label := by simpa using hbeq
    exact h (hpe ▸ List.mem_map_of_mem Prod.fst hp)

theorem lookupGroup_append_single_of_none (acc : List (Nat × SemDoc))
    (label' : Nat) (d : SemDoc) (label : Nat)
    (h : lookupGroup acc label = none) :
    lookupGroup (acc ++ [(label', d)]) label
      = if label' = label then some d else none := by
  have hfind : acc.find? (fun p => p.1 == label) = none := by
    unfold lookupGroup at h
    exact Option.map_eq_none'.mp h
  unfold lookupGroup
  rw [List.find?_append, hfind, Option.none_or]
  by_cases hl : label' = label
  · rw [if_pos hl, List.find?_cons_of_pos _ (by simpa using hl)]
    rfl
  · rw [if_neg hl, List.find?_cons_of_neg _ (by simpa using hl)]
    rfl

theorem lookupGroup_append_single_of_some (acc : List (Nat × SemDoc))
    (label' : Nat) (d : SemDoc) (label : Nat) (x : SemDoc)
    (h : lookupGroup acc label = some x) :
    lookupGroup (acc ++ [(label', d)]) label = some x := by
  obtain ⟨p, hfind, hpe⟩ := Option.map_eq_some'.mp h
  unfold lookupGroup
  rw [List.find?_append, hfind]
  simp [hpe]

theorem lookupGroup_cons (p : Nat × SemDoc) (rest : List (Nat × SemDoc))
    (label : Nat) :
    lookupGroup (p :: rest) label
      = if p.1 = label then some p.2 else lookupGroup rest label := by
  by_cases h : p.1 = label
  · rw [if_pos h]
    unfold lookupGroup
    rw [List.find?_cons_of_pos _ (by simpa using h)]
    rfl
  · rw [if_neg h]
    unfold lookupGroup
    rw [List.find?_cons_of_neg _ (by simpa using h)]

theorem lookupGroup_map_replace_self (acc : List (Nat × SemDoc)) (label : Nat)
    (v' : SemDoc) :
    lookupGroup (acc.map fun p => if p.1 = label then (label, v') else p) label
      = (lookupGroup acc label).map fun _ => v' := by
  induction acc with
  | nil => rfl
  | cons p rest ih =>
    rw [List.map_cons]
    by_cases h : p.1 = label
    · rw [if_pos h, lookupGroup_cons, lookupGroup_cons, if_pos h,
        if_pos (show (label, v').1 = label from rfl)]
      rfl
    · rw [if_neg h, lookupGroup_cons, lookupGroup_cons, if_neg h, if_neg h]
      exact ih

theorem lookupGroup_map_replace_other (acc : List (Nat × SemDoc))
    (label other : Nat) (v' : SemDoc) (hne : other ≠ label) :
    lookupGroup (acc.map fun p => if p.1 = label then (label, v') else p) other
      = lookupGroup acc other := by
  induction acc with
  | nil => rfl
  | cons p rest ih =>
    rw [List.map_cons]
    by_cases h : p.1 = label
    · rw [if_pos h, lookupGroup_cons, lookupGroup_cons,
        if_neg (show ¬ (label, v').1 = other from fun he => hne (Eq.symm he)),
        if_neg (show ¬ p.1 = other from fun he => hne (he.symm.trans h))]
      exact ih
    · rw [if_neg h, lookupGroup_cons, lookupGroup_cons]
      by_cases h2 : p.1 = other
      · rw [if_pos h2, if_pos h2]
      · rw [if_neg h2, if_neg h2]
        exact ih

theorem keys_map_replace (acc : List (Nat × SemDoc)) (label : Nat) (v' : SemDoc) :
    ((acc.map fun p => if p.1 = label then (label, v') else p).map Prod.fst)
      = acc.map Prod.fst := by
  induction acc with
  | nil => rfl
  | cons p rest ih =>
    rw [List.map_cons, List.map_cons, List.map_cons]
    by_cases h : p.1 = label
    · rw [if_pos h, ih]
      simp [h]
    · rw [if_neg h, ih]

theorem groupingUpdate_keys (w : SemDoc → ℤ) (acc : List (Nat × SemDoc))
    (label : Nat) (d : SemDoc) :
    (groupingUpdate w acc label d).map Prod.fst
      = if label ∈ acc.map Prod.fst then acc.map Prod.fst
        else acc.map Prod.fst ++ [label] := by
  unfold groupingUpdate
  cases hcur : lookupGroup acc label with
  | none =>
    rw [if_neg ((lookupGroup_eq_none_iff acc label).mp hcur)]
    simp
  | some cur =>
    have hmem : label ∈ acc.map Prod.fst := by
      by_contra hn
      rw [(lookupGroup_eq_none_iff acc label).mpr hn] at hcur
      cases hcur
    rw [if_pos hmem, keys_map_replace]

theorem groupingUpdate_lookup_self (w : SemDoc → ℤ) (acc : List (Nat × SemDoc))
    (label : Nat) (d : SemDoc) :
    lookupGroup (groupingUpdate w acc label d) label
      = some (match lookupGroup acc label with
          | none => d
          | some cur => if w cur ≤ w d then d else cur) := by
  unfold groupingUpdate
  cases hcur : lookupGroup acc label with
  | none =>
    rw [lookupGroup_append_single_of_none acc label d label hcur, if_pos rfl]
  | some cur =>
    rw [lookupGroup_map_replace_self acc label _, hcur]
    rfl

theorem groupingUpdate_lookup_other (w : SemDoc → ℤ) (acc : List (Nat × SemDoc))
    (label : Nat) (d : SemDoc) (other : Nat) (hne : other ≠ label) :
    lookupGroup (groupingUpdate w acc label d) other = lookupGroup acc other := by
  unfold groupingUpdate
  cases hcur : lookupGroup acc label with
  | none =>
    cases hx : lookupGroup acc other with
    | none =>
      rw [lookupGroup_append_single_of_none acc label d other hx,
        if_neg (Ne.symm hne)]
    | some x =>
      exact lookupGroup_append_single_of_some acc label d other x hx
  | some cur => exact lookupGroup_map_replace_other acc label other _ hne

end Semantic

namespace Semantic

theorem groupingFold_append_single (w : SemDoc → ℤ)
    (pairs : List (Nat × SemDoc)) (p : Nat × SemDoc) :
    groupingFold w (pairs ++ [p])
      = groupingUpdate w (groupingFold w pairs) p.1 p.2 := by
  unfold groupingFold
  rw [List.foldl_append, List.foldl_cons, List.foldl_nil]

theorem groupingFold_lookup (w : SemDoc → ℤ) (pairs : List (Nat × SemDoc))
    (label : Nat) :
    lookupGroup (groupingFold w pairs) label
      = lastMaxBy w (groupOf pairs label) := by
  induction pairs using List.reverseRecOn with
  | nil => rfl
  | append_singleton pairs p ih =>
    rw [groupingFold_append_single, groupOf_append_single]
    by_cases h : p.1 = label
    · subst h
      rw [if_pos rfl, groupingUpdate_lookup_self, ih, lastMaxBy_append_single]
    · rw [if_neg h, groupingUpdate_lookup_other w _ _ _ _ (fun he => h he.symm)]
      exact ih

theorem groupingFold_keys_mem (w : SemDoc → ℤ) (pairs : List (Nat × SemDoc))
    (x : Nat) :
    x ∈ (groupingFold w pairs).map Prod.fst ↔ x ∈ pairs.map Prod.fst := by
  induction pairs using List.reverseRecOn with
  | nil => simp [groupingFold]
  | append_singleton pairs p ih =>
    rw [groupingFold_append_single, groupingUpdate_keys, List.map_append]
    by_cases h : p.1 ∈ (groupingFold w pairs).map Prod.fst
    · rw [if_pos h]
      rw [ih]
      constructor
      · intro hx
        exact List.mem_append_left _ hx
      · intro hx
        rcases List.mem_append.mp hx with hx | hx
        · exact hx
        · have : x = p.1 := by simpa using hx
          subst this
          exact ih.mp h
    · rw [if_neg h]
      rw [List.mem_append, List.mem_append, ih]
      rfl

theorem groupingFold_keys_nodup (w : SemDoc → ℤ) (pairs : List (Nat × SemDoc)) :
    ((groupingFold w pairs).map Prod.fst).Nodup := by
  induction pairs using List.reverseRecOn with
  | nil => simp [groupingFold]
  | append_singleton pairs p ih =>
    rw [groupingFold_append_single, groupingUpdate_keys]
    by_cases h : p.1 ∈ (groupingFold w pairs).map Prod.fst
    · rw [if_pos h]
      exact ih
    · rw [if_neg h, List.nodup_append]
      refine ⟨ih, List.nodup_singleton _, ?_⟩
      intro x hx hx1
      have : x = p.1 := by simpa using hx1
      subst this
      exact h hx

theorem mem_map_snd_of_lookup (acc : List (Nat × SemDoc)) (label : Nat)
    (d : SemDoc) (h : lookupGroup acc label = some d) :
    d ∈ acc.map Prod.snd := by
  obtain ⟨p, hfind, hpe⟩ := Option.map_eq_some'.mp h
  exact hpe ▸ List.mem_map_of_mem Prod.snd (List.mem_of_find?_eq_some hfind)

theorem lookup_of_mem_nodup (acc : List (Nat × SemDoc))
    (hnd : (acc.map Prod.fst).Nodup) (p : Nat × SemDoc) (hp : p ∈ acc) :
    lookupGroup acc p.1 = some p.2 := by
  induction acc with
  | nil => cases hp
  | cons q rest ih =>
    rw [List.map_cons] at hnd
    rcases List.mem_cons.mp hp with he | hm
    · subst he
      rw [lookupGroup_cons, if_pos rfl]
    · rw [lookupGroup_cons]
      have hq : ¬ q.1 = p.1 := by
        intro he
        exact (List.nodup_cons.mp hnd).1 (he ▸ List.mem_map_of_mem Prod.fst hm)
      rw [if_neg hq]
      exact ih (List.nodup_cons.mp hnd).2 hm

end Semantic

namespace Semantic

/-- **C6 (amended).**  For every clustering computed by
`filter_semantically` (at least two documents): exactly one document per
distinct cluster label is kept, and it is the document with the highest
configured source weight in its cluster, with ties broken by the *last*
occurrence in input order — itertools' `GroupingMap::max_by_key` replaces the
accumulator on `Less | Equal`. -/
theorem filter_semantically_keeps_last_argmax
    (linkFn : List ℚ → Nat → Dendrogram) (cosSim : List ℚ → List ℚ → ℚ)
    (expQ : ℚ → ℚ) (docs : List SemDoc) (sources : List (String × ℤ))
    (config : SemanticFilterConfig) (h2 : 2 ≤ docs.length) :
    (filter_semantically linkFn cosSim expQ docs sources config).length
        = (((semanticLabels linkFn cosSim expQ config docs).zip docs).map
            Prod.fst).dedup.length
    ∧ (∀ label ∈ ((semanticLabels linkFn cosSim expQ config docs).zip docs).map
          Prod.fst,
        ∃ dd, lastMaxBy (source_weight sources)
            (groupOf ((semanticLabels linkFn cosSim expQ config docs).zip docs)
              label) = some dd
          ∧ dd ∈ filter_semantically linkFn cosSim expQ docs sources config)
    ∧ (∀ dd ∈ filter_semantically linkFn cosSim expQ docs sources config,
        ∃ label ∈ ((semanticLabels linkFn cosSim expQ config docs).zip docs).map
            Prod.fst,
          lastMaxBy (source_weight sources)
            (groupOf ((semanticLabels linkFn cosSim expQ config docs).zip docs)
              label) = some dd) := by
  set pairs := (semanticLabels linkFn cosSim expQ config docs).zip docs with hpairs
  set w := source_weight sources with hw
  have hfs : filter_semantically linkFn cosSim expQ docs sources config
      = (groupingFold w pairs).map Prod.snd := by
    unfold filter_semantically
    rw [if_neg (by omega)]
  refine ⟨?_, ?_, ?_⟩
  · rw [hfs, List.length_map]
    rw [show (groupingFold w pairs).length
        = ((groupingFold w pairs).map Prod.fst).length from
      (List.length_map _ _).symm]
    have hperm : ((groupingFold w pairs).map Prod.fst).Perm
        ((pairs.map Prod.fst).dedup) := by
      rw [List.perm_ext_iff_of_nodup (groupingFold_keys_nodup w pairs)
        (List.nodup_dedup _)]
      intro a
      rw [List.mem_dedup]
      exact groupingFold_keys_mem w pairs a
    exact hperm.length_eq
  · intro label hmem
    have hgrp : groupOf pairs label ≠ [] := fun h =>
      (groupOf_eq_nil_iff pairs label).mp h hmem
    cases hlast : lastMaxBy w (groupOf pairs label) with
    | none => exact absurd ((lastMaxBy_eq_none_iff w _).mp hlast) hgrp
    | some dd =>
      refine ⟨dd, rfl, ?_⟩
      rw [hfs]
      exact mem_map_snd_of_lookup _ label dd
        ((groupingFold_lookup w pairs label).trans hlast)
  · intro dd hdd
    rw [hfs] at hdd
    obtain ⟨p, hp, hpe⟩ := List.mem_map.mp hdd
    refine ⟨p.1, ?_, ?_⟩
    · exact (groupingFold_keys_mem w pairs p.1).mp
        (List.mem_map_of_mem Prod.fst hp)
    · rw [← groupingFold_lookup w pairs p.1,
        lookup_of_mem_nodup _ (groupingFold_keys_nodup w pairs) p hp, hpe]

end Semantic

namespace Semantic

theorem normalized_distance_pair (cosSim : List ℚ → List ℚ → ℚ) (expQ : ℚ → ℚ)
    (d1 d2 : SemDoc) (config : SemanticFilterConfig) :
    normalized_distance cosSim expQ [d1, d2] config = [0] := by
  unfold normalized_distance condensed_cosine_similarity condensed_date_distance
    condensed_decay_factor condensed_normalized_distance
  simp [condensedPairs, minmaxQ, sub_self]

theorem semanticLabels_pair_eval :
    semanticLabels linkagePair cosSimOne expModel
      ⟨10, 1 / 2, .MaxDissimilarity 1⟩ [docA, docB] = [0, 0] := by
  unfold semanticLabels
  rw [normalized_distance_pair]
  decide

/-- **C6, counterexample.**  Two documents with identical embeddings, dates,
and source (hence equal source weights) fall into one cluster; the claim's
first-occurrence tie-break predicts `[docA]`, but the grouping map keeps the
later document: the result is `[docB]`. -/
theorem filter_semantically_tie_counterexample :
    filter_semantically linkagePair cosSimOne expModel [docA, docB] []
        ⟨10, 1 / 2, .MaxDissimilarity 1⟩ = [docB] ∧
    filter_semantically linkagePair cosSimOne expModel [docA, docB] []
        ⟨10, 1 / 2, .MaxDissimilarity 1⟩ ≠ [docA] := by
  have hmain : filter_semantically linkagePair cosSimOne expModel [docA, docB]
      [] ⟨10, 1 / 2, .MaxDissimilarity 1⟩
      = (groupingFold (source_weight []) ([0, 0].zip [docA, docB])).map
          Prod.snd := by
    unfold filter_semantically
    rw [if_neg (by decide), semanticLabels_pair_eval]
  have hval : (groupingFold (source_weight []) ([0, 0].zip [docA, docB])).map
      Prod.snd = [docB] := by decide
  refine ⟨by rw [hmain, hval], ?_⟩
  rw [hmain, hval]
  intro h
  injection h with h1 _
  exact absurd h1 (by decide)

/-- Witness for the amended C6 theorem at a concrete two-document input. -/
theorem filter_semantically_keeps_last_argmax_witness :
    (filter_semantically linkagePair cosSimOne expModel [docA, docB] []
        ⟨10, 1 / 2, .MaxDissimilarity 1⟩).length
      = (((semanticLabels linkagePair cosSimOne expModel
            ⟨10, 1 / 2, .MaxDissimilarity 1⟩ [docA, docB]).zip
          [docA, docB]).map Prod.fst).dedup.length :=
  (filter_semantically_keeps_last_argmax linkagePair cosSimOne expModel
    [docA, docB] [] ⟨10, 1 / 2, .MaxDissimilarity 1⟩ (by decide)).1

end Semantic
